import Mathlib

/-!
Verification of the completion-synchronization core of fluent-child-process.

The development embeds, from `lib/utils.js` and `lib/processor.js` (together
with the constructor in `lib/fluent-child-process.js`):

* `LinesRing` — the bounded line ring buffer created by `utils.linesRing`
  (`append`, `close`, `get`, `callback`), over Lean `String`
  (logically a list of characters, matching JS string semantics);
* `extractError` — the stderr tail-extraction heuristic of
  `utils.extractError`;
* `Sess` / `sessStep` — the per-run state of `proto.run` /
  `proto._spawnChildProcess`: the completion flags and `exitError` of the
  stream/exit gate (`handleExit`), the session `ended` flag with its
  single-emission path (`emitEnd`), the two rings, and the timeout handler.
  Asynchronous delivery is modelled as a sequence of events (`Ev`) folded
  over the state; each event corresponds to one handler invocation of the
  single-threaded event loop.

`gateFired` / `gateErrs` are instrumentation fields recording each
invocation of the `endCB` continuation (the gate's terminal callback) and
the error value it received; `out` records the session-terminal `error` /
`end` notifications and the final-callback invocation; `kills` counts kill
signals sent by the timeout handler.
-/

/-! ### String plumbing -/

theorem strData_append (a b : String) : (a ++ b).data = a.data ++ b.data := rfl

theorem strExt {a b : String} (h : a.data = b.data) : a = b := by
  cases a; cases b; cases h; rfl

theorem strAppend_assoc (a b c : String) : a ++ b ++ c = a ++ (b ++ c) := by
  apply strExt; simp [strData_append]

theorem strAppend_empty (a : String) : a ++ "" = a := by
  apply strExt; simp [strData_append]

theorem strEmpty_append (a : String) : "" ++ a = a := by
  apply strExt; simp [strData_append]

/-! ### Newline splitting (`str.split(/\r\n|\r|\n/)`) -/

/-- Split a character list at every newline, treating `\r\n` as a single
separator and lone `\r` / `\n` as separators, exactly as the JS regexp
`/\r\n|\r|\n/` does (alternation tries `\r\n` first).  Like
`String.prototype.split`, the result always has at least one (possibly
empty) segment. -/
def splitNlAux : List Char → List (List Char)
  | [] => [[]]
  | '\r' :: '\n' :: rest => [] :: splitNlAux rest
  | '\r' :: rest => [] :: splitNlAux rest
  | '\n' :: rest => [] :: splitNlAux rest
  | c :: rest =>
    match splitNlAux rest with
    | [] => [[c]]
    | l :: ls => (c :: l) :: ls

/-- String-level wrapper of `splitNlAux`. -/
def splitNl (s : String) : List String :=
  (splitNlAux s.data).map (fun l => String.mk l)

/-- `Array.prototype.join('\n')`: concatenate with a newline between
consecutive elements (empty string on the empty list). -/
def joinLines : List String → String
  | [] => ""
  | [a] => a
  | a :: b :: rest => a ++ "\n" ++ joinLines (b :: rest)

/-! ### Error extraction (`utils.extractError`) -/

/-- `message.charAt(0) === ' ' || message.charAt(0) === '['` (the empty
string has no first character and never matches). -/
def isNoiseStart (m : String) : Bool :=
  match m.data with
  | [] => false
  | c :: _ => c = ' ' || c = '['

/-- `utils.extractError`: split stderr on newlines and `reduce`, resetting
the accumulator to `[]` on every line starting with a space or an opening
square bracket and pushing every other line, then join with newlines. -/
def extractError (stderr : String) : String :=
  joinLines ((splitNl stderr).foldl
    (fun messages message =>
      if isNoiseStart message then [] else messages ++ [message]) [])

/-! ### The line ring buffer (`utils.linesRing`) -/

/-- State of one `utils.linesRing(maxLines)` closure: the retained
`lines`, the pending partial line `current` (JS `null` ↔ `none`), the
`closed` flag, the construction-time `maxLines`, and the single observer's
delivery log (`none` until `callback` has been called; the JS closure keeps
a list `cbs` of callbacks, of which the session registers at most one). -/
structure LinesRing where
  lines : List String
  current : Option String
  closed : Bool
  maxLines : Int
  obs : Option (List String)
deriving Repr, DecidableEq

/-- Fresh ring: `utils.linesRing(maxLines)` with no observer. -/
def ringInit (maxLines : Int) : LinesRing :=
  { lines := [], current := none, closed := false, maxLines := maxLines, obs := none }

/-- The eviction step at the end of a multi-line `append`: JS
`if (max > -1 && lines.length > max) lines.splice(0, lines.length - max)`
with `max = maxLines - 1`. -/
def evict (maxLines : Int) (l : List String) : List String :=
  let mx := maxLines - 1
  if mx > -1 ∧ (l.length : Int) > mx then l.drop (l.length - mx.toNat) else l

/-- Decompose a nonempty list (given as head plus tail) into all elements
but the last, and the last: used to mirror `newLines.pop()`. -/
def splitLast (a : String) : List String → List String × String
  | [] => ([], a)
  | b :: rest =>
    let p := splitLast b rest
    (a :: p.1, p.2)

theorem splitLast_spec (a : String) (l : List String) :
    a :: l = (splitLast a l).1 ++ [(splitLast a l).2] := by
  induction l generalizing a with
  | nil => rfl
  | cons b rest ih => simpa [splitLast] using congrArg (a :: ·) (ih b)

namespace LinesRing

/-- `deliver` adds an emission batch to the observer's log, if one is
registered (JS `emit` calls each registered callback). -/
def deliver (st : LinesRing) (batch : List String) : LinesRing :=
  { st with obs := st.obs.map (fun r => r ++ batch) }

/-- `linesRing.append(str)`: no-op when closed or empty; split on
newlines; a single segment extends `current`; otherwise the first segment
completes `current` (emitted and pushed), middle segments are emitted and
pushed, the last segment becomes the new `current`, and the ring is
trimmed to the last `maxLines - 1` lines. -/
def append (st : LinesRing) (str : String) : LinesRing :=
  if st.closed then st
  else if str = "" then st
  else
    match splitNl str with
    | [] => st
    | [s] =>
      match st.current with
      | some cur => { st with current := some (cur ++ s) }
      | none => { st with current := some s }
    | first :: r :: rs =>
      let p := splitLast r rs
      let completed :=
        match st.current with
        | some cur => (cur ++ first) :: p.1
        | none => first :: p.1
      let st := st.deliver completed
      { st with
        current := some p.2,
        lines := evict st.maxLines (st.lines ++ completed) }

/-- `linesRing.close()`: idempotent; flushes `current` as a final line
(emitted, pushed, and one oldest line shifted out when over `maxLines - 1`)
and marks the ring closed. -/
def close (st : LinesRing) : LinesRing :=
  if st.closed then st
  else
    match st.current with
    | none => { st with closed := true }
    | some cur =>
      let st := st.deliver [cur]
      let newLines := st.lines ++ [cur]
      { st with
        lines :=
          if st.maxLines - 1 > -1 ∧ (newLines.length : Int) > st.maxLines - 1
          then newLines.tail else newLines,
        current := none,
        closed := true }

/-- `linesRing.get()`: retained lines plus the pending partial, joined
with newlines. -/
def get (st : LinesRing) : String :=
  match st.current with
  | some cur => joinLines (st.lines ++ [cur])
  | none => joinLines st.lines

/-- `linesRing.callback(cb)`: replay the currently retained lines to the
new observer, then subscribe it to future emissions. -/
def callback (st : LinesRing) : LinesRing :=
  { st with obs := some st.lines }

end LinesRing

/-- Fold a chunk sequence into a ring by successive `append` calls. -/
def runAppends (st : LinesRing) (chunks : List String) : LinesRing :=
  chunks.foldl LinesRing.append st

/-- One external operation on a ring: a data chunk or the stream end. -/
inductive RingOp where
  | append (s : String)
  | close
deriving Repr, DecidableEq

/-- Apply one `RingOp`. -/
def ringStep (st : LinesRing) : RingOp → LinesRing
  | .append s => st.append s
  | .close => st.close

/-- Apply a sequence of `RingOp`s. -/
def runOps (st : LinesRing) (ops : List RingOp) : LinesRing :=
  ops.foldl ringStep st

/-- The batch of lines an operation emits to observers, read off from the
corresponding branches of `append` / `close`. -/
def opEmits (st : LinesRing) : RingOp → List String
  | .close =>
    if st.closed then []
    else
      match st.current with
      | none => []
      | some cur => [cur]
  | .append str =>
    if st.closed then []
    else if str = "" then []
    else
      match splitNl str with
      | [] => []
      | [_] => []
      | first :: r :: rs =>
        match st.current with
        | some cur => (cur ++ first) :: (splitLast r rs).1
        | none => first :: (splitLast r rs).1

/-- All lines emitted while applying `ops` from `st`. -/
def emitsDuring (st : LinesRing) : List RingOp → List String
  | [] => []
  | op :: ops => opEmits st op ++ emitsDuring (ringStep st op) ops

/-! ### Session state (`proto.run` / `proto._spawnChildProcess`) -/

/-- Options fixed for one run: `captureStdout`, `timeout` (seconds,
`0` = disabled, matching the JS truthiness test `if (self.options.timeout)`),
`stdoutLines` (ring capacity for both rings), and the number of `stderr`
event listeners present when `processCB` runs. -/
structure SessCfg where
  captureStdout : Bool
  timeout : Nat
  stdoutLines : Int
  stderrListeners : Nat
deriving Repr, DecidableEq

/-- One observable terminal-path notification: the `error` event, the
`end` event, or the invocation of the caller's completion callback. -/
inductive Emission where
  | errorEv (err stdout stderr : String)
  | endEv (stdout stderr : String)
  | cb (err : Option String) (stdout stderr : String)
deriving Repr, DecidableEq

/-- `if (err) emit('error', ...) else emit('end', ...)`. -/
def terminalOf (err : Option String) (stdout stderr : String) : Emission :=
  match err with
  | some e => .errorEv e stdout stderr
  | none => .endEv stdout stderr

/-- The mutable state of one run: the two rings, the gate's completion
flags and `exitError`, the session-level `ended` flag and `childProc`
handle, plus observation logs (`out`, `gateFired`, `gateErrs`, `kills`). -/
structure Sess where
  stdoutRing : LinesRing
  stderrRing : LinesRing
  processExited : Bool
  stdoutClosed : Bool
  stderrClosed : Bool
  exitError : Option String
  ended : Bool
  childProc : Bool
  out : List Emission
  gateFired : Nat
  gateErrs : List (Option String)
  kills : Nat
deriving Repr, DecidableEq

/-- The gate's firing condition, verbatim from `handleExit`:
`processExited && (stdoutClosed || !options.captureStdout) && stderrClosed`. -/
def requiredDoneB (cfg : SessCfg) (st : Sess) : Bool :=
  st.processExited && (st.stdoutClosed || !cfg.captureStdout) && st.stderrClosed

/-- `str.match(/pat/) !== null`: `pat` occurs somewhere in `s`. -/
def hasSubstr (s pat : String) : Bool :=
  s.data.tails.any (fun t => pat.data.isPrefixOf t)

/-- `emitEnd(err, stdout, stderr)` from `proto.run`: guarded by `ended`,
emits `error` or `end` and then calls the caller's `endCallback` with the
same arguments. -/
def emitEnd (st : Sess) (err : Option String) (stdout stderr : String) : Sess :=
  if st.ended then st
  else
    { st with
      ended := true,
      out := st.out ++ [terminalOf err stdout stderr, .cb err stdout stderr] }

/-- The `endCB` continuation of `proto.run` as called from `handleExit`
(ring arguments present): drops the process handle, augments an
`exited with code` message with the extracted stderr tail, and funnels
into `emitEnd`.  `gateFired` / `gateErrs` record the invocation. -/
def endCB (st : Sess) (err : Option String) : Sess :=
  let st := { st with
    childProc := false,
    gateFired := st.gateFired + 1,
    gateErrs := st.gateErrs ++ [err] }
  match err with
  | some e =>
    let e :=
      if hasSubstr e "exited with code"
      then e ++ ": " ++ extractError st.stderrRing.get
      else e
    emitEnd st (some e) st.stdoutRing.get st.stderrRing.get
  | none => emitEnd st none st.stdoutRing.get st.stderrRing.get

/-- `handleExit(err)` from `_spawnChildProcess`: record the first
available error and fire `endCB` once every required signal is in. -/
def handleExit (cfg : SessCfg) (st : Sess) (err : Option String) : Sess :=
  let st :=
    match err with
    | some e => { st with exitError := some e }
    | none => st
  if requiredDoneB cfg st then endCB st st.exitError else st

/-- One asynchronous delivery to the session: process exit, a stream
close, the timeout timer, or a data chunk on one of the streams. -/
inductive Ev where
  | exit (code : Nat) (signal : Option String)
  | outClose
  | errClose
  | timeout
  | outData (s : String)
  | errData (s : String)
deriving Repr, DecidableEq

/-- The timeout message `'process ran into a timeout (' + timeout + 's)'`. -/
def timeoutMsg (cfg : SessCfg) : String :=
  "process ran into a timeout (" ++ toString cfg.timeout ++ "s)"

/-- One event-loop handler invocation, mirroring the handlers installed in
`_spawnChildProcess` and the timeout handler installed in `processCB`. -/
def sessStep (cfg : SessCfg) (st : Sess) : Ev → Sess
  | .exit code signal =>
    let st := { st with processExited := true }
    match signal with
    | some sg =>
      handleExit cfg st (some ("child process target was killed with signal " ++ sg))
    | none =>
      if code ≠ 0 then
        handleExit cfg st (some ("child process target exited with code " ++ toString code))
      else
        handleExit cfg st none
  | .outClose =>
    let st := { st with stdoutRing := st.stdoutRing.close, stdoutClosed := true }
    handleExit cfg st none
  | .errClose =>
    let st := { st with stderrRing := st.stderrRing.close, stderrClosed := true }
    handleExit cfg st none
  | .timeout =>
    let st := emitEnd st (some (timeoutMsg cfg)) st.stdoutRing.get st.stderrRing.get
    { st with kills := st.kills + 1 }
  | .outData s => { st with stdoutRing := st.stdoutRing.append s }
  | .errData s => { st with stderrRing := st.stderrRing.append s }

/-- Session state just after `_spawnChildProcess` has installed the
handlers and `processCB` has run: fresh rings (both built with
`stdoutLines`), all flags clear, and the stderr ring's observer registered
exactly when `self.listeners('stderr').length` was non-zero at that
moment. -/
def sessInit (cfg : SessCfg) : Sess :=
  let ring := ringInit cfg.stdoutLines
  { stdoutRing := ring,
    stderrRing := if cfg.stderrListeners ≠ 0 then ring.callback else ring,
    processExited := false,
    stdoutClosed := false,
    stderrClosed := false,
    exitError := none,
    ended := false,
    childProc := true,
    out := [],
    gateFired := 0,
    gateErrs := [],
    kills := 0 }

/-- Drive the session through a sequence of event deliveries. -/
def runEvents (cfg : SessCfg) (st : Sess) : List Ev → Sess
  | [] => st
  | e :: l => runEvents cfg (sessStep cfg st e) l

/-! #### Event classification and run validity -/

def isExitEv : Ev → Bool
  | .exit _ _ => true
  | _ => false

def isOutCloseEv : Ev → Bool
  | .outClose => true
  | _ => false

def isErrCloseEv : Ev → Bool
  | .errClose => true
  | _ => false

def isTimeoutEv : Ev → Bool
  | .timeout => true
  | _ => false

def isOutDataEv : Ev → Bool
  | .outData _ => true
  | _ => false

def isSignalEv (e : Ev) : Bool :=
  isExitEv e || isOutCloseEv e || isErrCloseEv e

/-- A complete run of a successfully spawned process: the exit signal and
the stderr close arrive exactly once, the stdout close arrives exactly
once when stdout is captured (and never otherwise), the timeout timer
fires at most once and only when configured, and stdout data only flows
when captured. -/
def validRun (cfg : SessCfg) (l : List Ev) : Prop :=
  l.countP isExitEv = 1 ∧
  l.countP isOutCloseEv = (if cfg.captureStdout then 1 else 0) ∧
  l.countP isErrCloseEv = 1 ∧
  l.countP isTimeoutEv ≤ (if cfg.timeout ≠ 0 then 1 else 0) ∧
  (cfg.captureStdout = false → l.countP isOutDataEv = 0)

instance (cfg : SessCfg) (l : List Ev) : Decidable (validRun cfg l) := by
  unfold validRun; infer_instance

/-- A pure permutation of the gate's required signals: exactly the
required report calls, each once, in an arbitrary order. -/
def gateRun (cfg : SessCfg) (l : List Ev) : Prop :=
  l.countP isExitEv = 1 ∧
  l.countP isOutCloseEv = (if cfg.captureStdout then 1 else 0) ∧
  l.countP isErrCloseEv = 1 ∧
  (∀ e ∈ l, isSignalEv e = true)

instance (cfg : SessCfg) (l : List Ev) : Decidable (gateRun cfg l) := by
  unfold gateRun; infer_instance

/-! #### The spawn-error path (`childProc.on('error', ...)`) -/

/-- Reading `.get()` off a ring argument that may be `undefined`: a JS
`TypeError` when absent. -/
def getOpt : Option LinesRing → Except String String
  | some r => .ok r.get
  | none => .error "TypeError: Cannot read property get of undefined"

/-- `endCB` with its ring parameters as actually passed at each call
site.  `handleExit` passes both rings; the `childProc.on('error')` handler
calls `endCB(err)` with both ring parameters `undefined`, so the body's
`stdoutRing.get()` / `stderrRing.get()` throw. -/
def endCBArgs (st : Sess) (err : Option String)
    (stdoutRing stderrRing : Option LinesRing) : Except String Sess :=
  let st := { st with
    childProc := false,
    gateFired := st.gateFired + 1,
    gateErrs := st.gateErrs ++ [err] }
  match err with
  | some e => do
    let e ←
      if hasSubstr e "exited with code"
      then do
        let seTxt ← getOpt stderrRing
        pure (e ++ ": " ++ extractError seTxt)
      else pure e
    let stdout ← getOpt stdoutRing
    let stderr ← getOpt stderrRing
    pure (emitEnd st (some e) stdout stderr)
  | none => do
    let stdout ← getOpt stdoutRing
    let stderr ← getOpt stderrRing
    pure (emitEnd st none stdout stderr)

/-- The `childProc.on('error')` handler: `endCB(err)` — only the error is
passed, both ring arguments are left `undefined`. -/
def spawnErrorStep (st : Sess) (err : String) : Except String Sess :=
  endCBArgs st (some err) none none

/-- With both rings present, `endCBArgs` agrees with the total `endCB`
used by `handleExit` (the session's own rings are the ones passed). -/
theorem endCBArgs_total (st : Sess) (err : Option String) :
    endCBArgs st err (some st.stdoutRing) (some st.stderrRing) = .ok (endCB st err) := by
  cases err with
  | none => rfl
  | some e =>
    simp only [endCBArgs, endCB, getOpt]
    split <;> rfl

/-- The constructor `ChildProcessCommand` returns `this.run()`: `run` is
invoked synchronously inside construction, so when `processCB` checks
`self.listeners('stderr').length` no caller-attached listener can exist
yet — the count is `0`. -/
def constructedCfg (captureStdout : Bool) (timeout : Nat) (stdoutLines : Int) : SessCfg :=
  { captureStdout := captureStdout,
    timeout := timeout,
    stdoutLines := stdoutLines,
    stderrListeners := 0 }

/-- The lines delivered as `stderr` events over a whole run: the stderr
ring observer's log (empty when no observer was ever registered). -/
def stderrEvents (st : Sess) : List String :=
  match st.stderrRing.obs with
  | some l => l
  | none => []

/-! ### Field-preservation lemmas for the session step -/

@[simp] theorem emitEnd_processExited (st : Sess) (e : Option String) (s1 s2 : String) :
    (emitEnd st e s1 s2).processExited = st.processExited := by
  unfold emitEnd; split <;> rfl

@[simp] theorem emitEnd_stdoutClosed (st : Sess) (e : Option String) (s1 s2 : String) :
    (emitEnd st e s1 s2).stdoutClosed = st.stdoutClosed := by
  unfold emitEnd; split <;> rfl

@[simp] theorem emitEnd_stderrClosed (st : Sess) (e : Option String) (s1 s2 : String) :
    (emitEnd st e s1 s2).stderrClosed = st.stderrClosed := by
  unfold emitEnd; split <;> rfl

@[simp] theorem emitEnd_exitError (st : Sess) (e : Option String) (s1 s2 : String) :
    (emitEnd st e s1 s2).exitError = st.exitError := by
  unfold emitEnd; split <;> rfl

@[simp] theorem emitEnd_gateFired (st : Sess) (e : Option String) (s1 s2 : String) :
    (emitEnd st e s1 s2).gateFired = st.gateFired := by
  unfold emitEnd; split <;> rfl

@[simp] theorem emitEnd_gateErrs (st : Sess) (e : Option String) (s1 s2 : String) :
    (emitEnd st e s1 s2).gateErrs = st.gateErrs := by
  unfold emitEnd; split <;> rfl

@[simp] theorem emitEnd_kills (st : Sess) (e : Option String) (s1 s2 : String) :
    (emitEnd st e s1 s2).kills = st.kills := by
  unfold emitEnd; split <;> rfl

@[simp] theorem emitEnd_stdoutRing (st : Sess) (e : Option String) (s1 s2 : String) :
    (emitEnd st e s1 s2).stdoutRing = st.stdoutRing := by
  unfold emitEnd; split <;> rfl

@[simp] theorem emitEnd_stderrRing (st : Sess) (e : Option String) (s1 s2 : String) :
    (emitEnd st e s1 s2).stderrRing = st.stderrRing := by
  unfold emitEnd; split <;> rfl

@[simp] theorem emitEnd_ended (st : Sess) (e : Option String) (s1 s2 : String) :
    (emitEnd st e s1 s2).ended = true := by
  unfold emitEnd; split
  · assumption
  · rfl

@[simp] theorem endCB_processExited (st : Sess) (e : Option String) :
    (endCB st e).processExited = st.processExited := by
  unfold endCB; cases e <;> simp

@[simp] theorem endCB_stdoutClosed (st : Sess) (e : Option String) :
    (endCB st e).stdoutClosed = st.stdoutClosed := by
  unfold endCB; cases e <;> simp

@[simp] theorem endCB_stderrClosed (st : Sess) (e : Option String) :
    (endCB st e).stderrClosed = st.stderrClosed := by
  unfold endCB; cases e <;> simp

@[simp] theorem endCB_exitError (st : Sess) (e : Option String) :
    (endCB st e).exitError = st.exitError := by
  unfold endCB; cases e <;> simp

@[simp] theorem endCB_gateFired (st : Sess) (e : Option String) :
    (endCB st e).gateFired = st.gateFired + 1 := by
  unfold endCB; cases e <;> simp

@[simp] theorem endCB_gateErrs (st : Sess) (e : Option String) :
    (endCB st e).gateErrs = st.gateErrs ++ [e] := by
  unfold endCB; cases e <;> simp

@[simp] theorem endCB_kills (st : Sess) (e : Option String) :
    (endCB st e).kills = st.kills := by
  unfold endCB; cases e <;> simp

@[simp] theorem endCB_stdoutRing (st : Sess) (e : Option String) :
    (endCB st e).stdoutRing = st.stdoutRing := by
  unfold endCB; cases e <;> simp

@[simp] theorem endCB_stderrRing (st : Sess) (e : Option String) :
    (endCB st e).stderrRing = st.stderrRing := by
  unfold endCB; cases e <;> simp

@[simp] theorem endCB_ended (st : Sess) (e : Option String) :
    (endCB st e).ended = true := by
  unfold endCB; cases e <;> simp

/-- The error-recording first half of `handleExit`
(`if (err) { exitError = err; }`). -/
def exitErrUpd (st : Sess) : Option String → Sess
  | some v => { st with exitError := some v }
  | none => st

@[simp] theorem exitErrUpd_none (st : Sess) : exitErrUpd st none = st := rfl

@[simp] theorem exitErrUpd_some_exitError (st : Sess) (v : String) :
    (exitErrUpd st (some v)).exitError = some v := rfl

@[simp] theorem exitErrUpd_processExited (st : Sess) (e : Option String) :
    (exitErrUpd st e).processExited = st.processExited := by cases e <;> rfl

@[simp] theorem exitErrUpd_stdoutClosed (st : Sess) (e : Option String) :
    (exitErrUpd st e).stdoutClosed = st.stdoutClosed := by cases e <;> rfl

@[simp] theorem exitErrUpd_stderrClosed (st : Sess) (e : Option String) :
    (exitErrUpd st e).stderrClosed = st.stderrClosed := by cases e <;> rfl

@[simp] theorem exitErrUpd_ended (st : Sess) (e : Option String) :
    (exitErrUpd st e).ended = st.ended := by cases e <;> rfl

@[simp] theorem exitErrUpd_out (st : Sess) (e : Option String) :
    (exitErrUpd st e).out = st.out := by cases e <;> rfl

@[simp] theorem exitErrUpd_gateFired (st : Sess) (e : Option String) :
    (exitErrUpd st e).gateFired = st.gateFired := by cases e <;> rfl

@[simp] theorem exitErrUpd_gateErrs (st : Sess) (e : Option String) :
    (exitErrUpd st e).gateErrs = st.gateErrs := by cases e <;> rfl

@[simp] theorem exitErrUpd_kills (st : Sess) (e : Option String) :
    (exitErrUpd st e).kills = st.kills := by cases e <;> rfl

@[simp] theorem exitErrUpd_stdoutRing (st : Sess) (e : Option String) :
    (exitErrUpd st e).stdoutRing = st.stdoutRing := by cases e <;> rfl

@[simp] theorem exitErrUpd_stderrRing (st : Sess) (e : Option String) :
    (exitErrUpd st e).stderrRing = st.stderrRing := by cases e <;> rfl

/-- `handleExit` is the error update followed by the guarded `endCB` call
(the guard reads only the flags, which the error update leaves alone). -/
theorem handleExit_eq (cfg : SessCfg) (st : Sess) (e : Option String) :
    handleExit cfg st e =
      if requiredDoneB cfg st then endCB (exitErrUpd st e) (exitErrUpd st e).exitError
      else exitErrUpd st e := by
  cases e <;> rfl

@[simp] theorem handleExit_processExited (cfg : SessCfg) (st : Sess) (e : Option String) :
    (handleExit cfg st e).processExited = st.processExited := by
  rw [handleExit_eq]; split <;> simp

@[simp] theorem handleExit_stdoutClosed (cfg : SessCfg) (st : Sess) (e : Option String) :
    (handleExit cfg st e).stdoutClosed = st.stdoutClosed := by
  rw [handleExit_eq]; split <;> simp

@[simp] theorem handleExit_stderrClosed (cfg : SessCfg) (st : Sess) (e : Option String) :
    (handleExit cfg st e).stderrClosed = st.stderrClosed := by
  rw [handleExit_eq]; split <;> simp

@[simp] theorem handleExit_stdoutRing (cfg : SessCfg) (st : Sess) (e : Option String) :
    (handleExit cfg st e).stdoutRing = st.stdoutRing := by
  rw [handleExit_eq]; split <;> simp

@[simp] theorem handleExit_stderrRing (cfg : SessCfg) (st : Sess) (e : Option String) :
    (handleExit cfg st e).stderrRing = st.stderrRing := by
  rw [handleExit_eq]; split <;> simp

@[simp] theorem handleExit_kills (cfg : SessCfg) (st : Sess) (e : Option String) :
    (handleExit cfg st e).kills = st.kills := by
  rw [handleExit_eq]; split <;> simp

theorem handleExit_gateFired (cfg : SessCfg) (st : Sess) (e : Option String) :
    (handleExit cfg st e).gateFired =
      st.gateFired + (if requiredDoneB cfg st then 1 else 0) := by
  rw [handleExit_eq]; split <;> simp

theorem handleExit_ended_of_fired (cfg : SessCfg) (st : Sess) (e : Option String)
    (h : requiredDoneB cfg st = true) : (handleExit cfg st e).ended = true := by
  rw [handleExit_eq, if_pos h]; simp

theorem handleExit_ended_mono (cfg : SessCfg) (st : Sess) (e : Option String)
    (h : st.ended = true) : (handleExit cfg st e).ended = true := by
  rw [handleExit_eq]; split <;> simp [h]

/-! ### Step-level flag dynamics -/

theorem sessStep_processExited (cfg : SessCfg) (st : Sess) (e : Ev) :
    (sessStep cfg st e).processExited = (st.processExited || isExitEv e) := by
  cases e <;> simp [sessStep, isExitEv]
  case exit code signal =>
    cases signal <;> simp
    split <;> simp

theorem sessStep_stdoutClosed (cfg : SessCfg) (st : Sess) (e : Ev) :
    (sessStep cfg st e).stdoutClosed = (st.stdoutClosed || isOutCloseEv e) := by
  cases e <;> simp [sessStep, isOutCloseEv]
  case exit code signal =>
    cases signal <;> simp
    split <;> simp

theorem sessStep_stderrClosed (cfg : SessCfg) (st : Sess) (e : Ev) :
    (sessStep cfg st e).stderrClosed = (st.stderrClosed || isErrCloseEv e) := by
  cases e <;> simp [sessStep, isErrCloseEv]
  case exit code signal =>
    cases signal <;> simp
    split <;> simp

theorem runEvents_processExited (cfg : SessCfg) (st : Sess) (l : List Ev) :
    (runEvents cfg st l).processExited = (st.processExited || l.any isExitEv) := by
  induction l generalizing st with
  | nil => simp [runEvents]
  | cons e l ih => simp [runEvents, ih, sessStep_processExited, Bool.or_assoc]

theorem runEvents_stdoutClosed (cfg : SessCfg) (st : Sess) (l : List Ev) :
    (runEvents cfg st l).stdoutClosed = (st.stdoutClosed || l.any isOutCloseEv) := by
  induction l generalizing st with
  | nil => simp [runEvents]
  | cons e l ih => simp [runEvents, ih, sessStep_stdoutClosed, Bool.or_assoc]

theorem runEvents_stderrClosed (cfg : SessCfg) (st : Sess) (l : List Ev) :
    (runEvents cfg st l).stderrClosed = (st.stderrClosed || l.any isErrCloseEv) := by
  induction l generalizing st with
  | nil => simp [runEvents]
  | cons e l ih => simp [runEvents, ih, sessStep_stderrClosed, Bool.or_assoc]

/-! ### The terminal-emission structure invariant (C1 machinery) -/

/-- Invariant tying the `ended` guard to the observable terminal output:
before `emitEnd` has run the output log is empty; afterwards it is exactly
one terminal notification (`error` or `end`) followed by the completion
callback carrying the same arguments. -/
def OutInv (st : Sess) : Prop :=
  (st.ended = false ∧ st.out = []) ∨
  (st.ended = true ∧
    ∃ err stdout stderr,
      st.out = [terminalOf err stdout stderr, Emission.cb err stdout stderr])

theorem emitEnd_OutInv (st : Sess) (e : Option String) (s1 s2 : String)
    (h : OutInv st) : OutInv (emitEnd st e s1 s2) := by
  unfold emitEnd
  rcases h with ⟨hend, hout⟩ | ⟨hend, hout⟩
  · rw [if_neg (by simp [hend])]
    exact Or.inr ⟨rfl, e, s1, s2, by simp [hout]⟩
  · rw [if_pos hend]
    exact Or.inr ⟨hend, hout⟩

theorem endCB_OutInv (st : Sess) (e : Option String) (h : OutInv st) :
    OutInv (endCB st e) := by
  have hbase : OutInv { st with
      childProc := false,
      gateFired := st.gateFired + 1,
      gateErrs := st.gateErrs ++ [e] } := by
    rcases h with ⟨hend, hout⟩ | ⟨hend, hout⟩
    · exact Or.inl ⟨hend, hout⟩
    · exact Or.inr ⟨hend, hout⟩
  unfold endCB
  cases e with
  | none => exact emitEnd_OutInv _ _ _ _ hbase
  | some v => exact emitEnd_OutInv _ _ _ _ hbase

theorem exitErrUpd_OutInv (st : Sess) (e : Option String) (h : OutInv st) :
    OutInv (exitErrUpd st e) := by
  cases e with
  | none => simpa using h
  | some v =>
    rcases h with ⟨hend, hout⟩ | ⟨hend, hout⟩
    · exact Or.inl ⟨hend, hout⟩
    · exact Or.inr ⟨hend, hout⟩

theorem handleExit_OutInv (cfg : SessCfg) (st : Sess) (e : Option String)
    (h : OutInv st) : OutInv (handleExit cfg st e) := by
  rw [handleExit_eq]
  split
  · exact endCB_OutInv _ _ (exitErrUpd_OutInv _ _ h)
  · exact exitErrUpd_OutInv _ _ h

/-- `OutInv` only mentions `ended` and `out`, so it transfers along any
state change preserving those two fields. -/
theorem OutInv_of_eq (st st' : Sess) (he : st'.ended = st.ended)
    (ho : st'.out = st.out) (h : OutInv st) : OutInv st' := by
  unfold OutInv
  rw [he, ho]
  exact h

theorem sessStep_OutInv (cfg : SessCfg) (st : Sess) (e : Ev) (h : OutInv st) :
    OutInv (sessStep cfg st e) := by
  cases e with
  | exit code signal =>
    have hbase : OutInv { st with processExited := true } := OutInv_of_eq st _ rfl rfl h
    cases signal with
    | some sg => exact handleExit_OutInv _ _ _ hbase
    | none =>
      simp only [sessStep]
      split
      · exact handleExit_OutInv _ _ _ hbase
      · exact handleExit_OutInv _ _ _ hbase
  | outClose =>
    exact handleExit_OutInv _ _ _ (OutInv_of_eq st _ rfl rfl h)
  | errClose =>
    exact handleExit_OutInv _ _ _ (OutInv_of_eq st _ rfl rfl h)
  | timeout =>
    exact OutInv_of_eq _ _ rfl rfl
      (emitEnd_OutInv st (some (timeoutMsg cfg)) st.stdoutRing.get st.stderrRing.get h)
  | outData s =>
    exact OutInv_of_eq st _ rfl rfl h
  | errData s =>
    exact OutInv_of_eq st _ rfl rfl h

theorem runEvents_OutInv (cfg : SessCfg) (st : Sess) (l : List Ev) (h : OutInv st) :
    OutInv (runEvents cfg st l) := by
  induction l generalizing st with
  | nil => exact h
  | cons e l ih => exact ih _ (sessStep_OutInv cfg st e h)

/-! ### The firing guarantee (C1 machinery, continued) -/

@[simp] theorem requiredDoneB_handleExit (cfg cfg' : SessCfg) (st : Sess) (e : Option String) :
    requiredDoneB cfg (handleExit cfg' st e) = requiredDoneB cfg st := by
  simp [requiredDoneB]

/-- Once all required completion flags are up, the session has emitted:
each flag-setting handler re-checks the full condition and fires `endCB`
when it is the last one in, and the other handlers leave the flags
unchanged. -/
theorem sessStep_fireInv (cfg : SessCfg) (st : Sess) (e : Ev)
    (h : requiredDoneB cfg st = true → st.ended = true)
    (h2 : requiredDoneB cfg (sessStep cfg st e) = true) :
    (sessStep cfg st e).ended = true := by
  cases e with
  | exit code signal =>
    cases signal with
    | some sg =>
      simp only [sessStep, requiredDoneB_handleExit] at h2
      exact handleExit_ended_of_fired _ _ _ h2
    | none =>
      by_cases hc : code ≠ 0
      · simp only [sessStep, if_pos hc, requiredDoneB_handleExit] at h2 ⊢
        exact handleExit_ended_of_fired _ _ _ h2
      · simp only [sessStep, if_neg hc, requiredDoneB_handleExit] at h2 ⊢
        exact handleExit_ended_of_fired _ _ _ h2
  | outClose =>
    simp only [sessStep, requiredDoneB_handleExit] at h2
    exact handleExit_ended_of_fired _ _ _ h2
  | errClose =>
    simp only [sessStep, requiredDoneB_handleExit] at h2
    exact handleExit_ended_of_fired _ _ _ h2
  | timeout =>
    simp [sessStep]
  | outData s =>
    have hd : requiredDoneB cfg st = true := by
      simpa [requiredDoneB, sessStep] using h2
    simpa [sessStep] using h hd
  | errData s =>
    have hd : requiredDoneB cfg st = true := by
      simpa [requiredDoneB, sessStep] using h2
    simpa [sessStep] using h hd

theorem runEvents_fireInv (cfg : SessCfg) (st : Sess) (l : List Ev)
    (h : requiredDoneB cfg st = true → st.ended = true) :
    requiredDoneB cfg (runEvents cfg st l) = true →
      (runEvents cfg st l).ended = true := by
  induction l generalizing st with
  | nil => exact h
  | cons e l ih =>
    exact ih (sessStep cfg st e) (sessStep_fireInv cfg st e h)

theorem any_of_countP_pos {α : Type} (p : α → Bool) (l : List α)
    (h : 0 < l.countP p) : l.any p = true := by
  rw [List.any_eq_true]
  exact List.countP_pos_iff.mp h

/-- C1: on every valid interleaving of the exit, stream-close and timeout
signals, the observable terminal output of the run is exactly one
`error`-or-`end` notification followed by exactly one completion-callback
invocation carrying the same `(err, stdout, stderr)` arguments. -/
theorem session_terminal_exactly_once (cfg : SessCfg) (l : List Ev)
    (h : validRun cfg l) :
    ∃ err stdout stderr,
      (runEvents cfg (sessInit cfg) l).out =
        [terminalOf err stdout stderr, Emission.cb err stdout stderr] := by
  obtain ⟨hx, ho, he, -, -⟩ := h
  have hinv : OutInv (runEvents cfg (sessInit cfg) l) :=
    runEvents_OutInv _ _ _ (Or.inl ⟨rfl, rfl⟩)
  have hanyx : l.any isExitEv = true :=
    any_of_countP_pos _ _ (by rw [hx]; exact Nat.one_pos)
  have hanye : l.any isErrCloseEv = true :=
    any_of_countP_pos _ _ (by rw [he]; exact Nat.one_pos)
  have hdone : requiredDoneB cfg (runEvents cfg (sessInit cfg) l) = true := by
    unfold requiredDoneB
    rw [runEvents_processExited, runEvents_stdoutClosed, runEvents_stderrClosed]
    cases hcap : cfg.captureStdout with
    | false => simp [sessInit, hanyx, hanye]
    | true =>
      have hanyo : l.any isOutCloseEv = true :=
        any_of_countP_pos _ _ (by rw [ho, if_pos hcap]; exact Nat.one_pos)
      simp [sessInit, hanyx, hanye, hanyo]
  have hended : (runEvents cfg (sessInit cfg) l).ended = true := by
    refine runEvents_fireInv cfg (sessInit cfg) l ?_ hdone
    intro hk
    simp [requiredDoneB, sessInit] at hk
  rcases hinv with ⟨hf, -⟩ | ⟨-, err, stdout, stderr, hout⟩
  · rw [hended] at hf; cases hf
  · exact ⟨err, stdout, stderr, hout⟩

/-- Witness for C1 at a concrete configuration and interleaving. -/
theorem session_terminal_exactly_once_witness :
    validRun (SessCfg.mk true 0 0 0) [Ev.errClose, Ev.outClose, Ev.exit 0 none] ∧
    ∃ err stdout stderr,
      (runEvents (SessCfg.mk true 0 0 0) (sessInit (SessCfg.mk true 0 0 0))
        [Ev.errClose, Ev.outClose, Ev.exit 0 none]).out =
        [terminalOf err stdout stderr, Emission.cb err stdout stderr] :=
  ⟨by decide,
   session_terminal_exactly_once (SessCfg.mk true 0 0 0)
     [Ev.errClose, Ev.outClose, Ev.exit 0 none] (by decide)⟩

/-! ### The timeout path (C7) -/

/-- C7: when the timer fires before the session has ended, the timeout
handler immediately emits the terminal `error` notification and the
completion callback with the timeout message and the current (possibly
still open) ring snapshots, without going through `endCB` (the gate), and
then sends a kill signal; when the session has already ended, the
`ended` guard makes the emission a no-op (the kill is still sent). -/
theorem timeout_terminal_path (cfg : SessCfg) (st : Sess) (h : st.ended = false) :
    (sessStep cfg st .timeout).out =
      st.out ++
        [Emission.errorEv (timeoutMsg cfg) st.stdoutRing.get st.stderrRing.get,
         Emission.cb (some (timeoutMsg cfg)) st.stdoutRing.get st.stderrRing.get] ∧
    (∃ a b, timeoutMsg cfg = a ++ ("timeout (" ++ toString cfg.timeout ++ "s)") ++ b) ∧
    (sessStep cfg st .timeout).kills = st.kills + 1 ∧
    (sessStep cfg st .timeout).gateFired = st.gateFired ∧
    ∀ t : Sess, t.ended = true → (sessStep cfg t .timeout).out = t.out := by
  refine ⟨?_, ?_, ?_, ?_, ?_⟩
  · simp [sessStep, emitEnd, h, terminalOf]
  · refine ⟨"process ran into a ", "", ?_⟩
    apply strExt
    have hlit : ("process ran into a " : String).data ++ ("timeout (" : String).data =
        ("process ran into a timeout (" : String).data := by decide
    simp only [timeoutMsg, strData_append, ← hlit, List.append_assoc]
    simp
  · simp [sessStep, emitEnd, h]
  · simp [sessStep, emitEnd, h]
  · intro t ht
    simp [sessStep, emitEnd, ht]

/-- Witness for C7 at a concrete state. -/
theorem timeout_terminal_path_witness :
    (sessInit (SessCfg.mk true 1 0 0)).ended = false ∧
    ((sessStep (SessCfg.mk true 1 0 0) (sessInit (SessCfg.mk true 1 0 0)) .timeout).out =
      (sessInit (SessCfg.mk true 1 0 0)).out ++
        [Emission.errorEv (timeoutMsg (SessCfg.mk true 1 0 0))
            (sessInit (SessCfg.mk true 1 0 0)).stdoutRing.get
            (sessInit (SessCfg.mk true 1 0 0)).stderrRing.get,
         Emission.cb (some (timeoutMsg (SessCfg.mk true 1 0 0)))
            (sessInit (SessCfg.mk true 1 0 0)).stdoutRing.get
            (sessInit (SessCfg.mk true 1 0 0)).stderrRing.get] ∧
    (∃ a b, timeoutMsg (SessCfg.mk true 1 0 0) =
        a ++ ("timeout (" ++ toString (SessCfg.mk true 1 0 0).timeout ++ "s)") ++ b) ∧
    (sessStep (SessCfg.mk true 1 0 0) (sessInit (SessCfg.mk true 1 0 0)) .timeout).kills =
      (sessInit (SessCfg.mk true 1 0 0)).kills + 1 ∧
    (sessStep (SessCfg.mk true 1 0 0) (sessInit (SessCfg.mk true 1 0 0)) .timeout).gateFired =
      (sessInit (SessCfg.mk true 1 0 0)).gateFired ∧
    ∀ t : Sess, t.ended = true →
      (sessStep (SessCfg.mk true 1 0 0) t .timeout).out = t.out) :=
  ⟨rfl, timeout_terminal_path (SessCfg.mk true 1 0 0) (sessInit (SessCfg.mk true 1 0 0)) rfl⟩

/-! ### Error preservation in the gate (C8) -/

/-- The report calls that carry no error: the two stream closes (which
call `handleExit()` with no argument) and a clean exit (`code 0`, no
signal). -/
def noErrorReport : Ev → Bool
  | .outClose => true
  | .errClose => true
  | .exit code signal =>
    match code, signal with
    | 0, none => true
    | _, _ => false
  | _ => false

theorem handleExit_none_exitError (cfg : SessCfg) (st : Sess) :
    (handleExit cfg st none).exitError = st.exitError := by
  rw [handleExit_eq]; split <;> simp

theorem handleExit_none_gateErrs (cfg : SessCfg) (st : Sess) :
    (handleExit cfg st none).gateErrs = st.gateErrs ∨
    (handleExit cfg st none).gateErrs = st.gateErrs ++ [st.exitError] := by
  rw [handleExit_eq]
  split
  · exact Or.inr (by simp)
  · exact Or.inl (by simp)

theorem sessStep_noError_exitError (cfg : SessCfg) (st : Sess) (e : Ev)
    (h : noErrorReport e = true) :
    (sessStep cfg st e).exitError = st.exitError ∧
    ((sessStep cfg st e).gateErrs = st.gateErrs ∨
     (sessStep cfg st e).gateErrs = st.gateErrs ++ [st.exitError]) := by
  cases e with
  | exit code signal =>
    cases signal with
    | some sg => simp [noErrorReport] at h
    | none =>
      cases code with
      | zero =>
        constructor
        · simpa [sessStep] using
            handleExit_none_exitError cfg { st with processExited := true }
        · simpa [sessStep] using
            handleExit_none_gateErrs cfg { st with processExited := true }
      | succ n => simp [noErrorReport] at h
  | outClose =>
    constructor
    · exact handleExit_none_exitError cfg _
    · simpa using handleExit_none_gateErrs cfg
        { st with stdoutRing := st.stdoutRing.close, stdoutClosed := true }
  | errClose =>
    constructor
    · exact handleExit_none_exitError cfg _
    · simpa using handleExit_none_gateErrs cfg
        { st with stderrRing := st.stderrRing.close, stderrClosed := true }
  | timeout => simp [noErrorReport] at h
  | outData s => simp [noErrorReport] at h
  | errData s => simp [noErrorReport] at h

/-- C8: once the gate's `exitError` holds an error, any sequence of
error-free reports leaves it unchanged, and every `endCB` invocation made
during those reports receives exactly that preserved error. -/
theorem gate_first_error_wins (cfg : SessCfg) (st : Sess) (e : String) (l : List Ev)
    (h1 : st.exitError = some e) (h2 : ∀ ev ∈ l, noErrorReport ev = true) :
    (runEvents cfg st l).exitError = some e ∧
    ∀ x ∈ (runEvents cfg st l).gateErrs, x ∈ st.gateErrs ∨ x = some e := by
  induction l generalizing st with
  | nil => exact ⟨h1, fun x hx => Or.inl hx⟩
  | cons ev l ih =>
    have hev := h2 ev (by simp)
    obtain ⟨hee, hge⟩ := sessStep_noError_exitError cfg st ev hev
    have h1' : (sessStep cfg st ev).exitError = some e := hee.trans h1
    obtain ⟨ha, hb⟩ := ih (sessStep cfg st ev) h1' (fun x hx => h2 x (by simp [hx]))
    refine ⟨ha, fun x hx => ?_⟩
    rcases hb x hx with hmem | heq
    · rcases hge with hg | hg
      · exact Or.inl (hg ▸ hmem)
      · rw [hg] at hmem
        rcases List.mem_append.mp hmem with hm | hm
        · exact Or.inl hm
        · simp at hm
          exact Or.inr (by rw [hm, h1])
    · exact Or.inr heq

/-- Witness for C8 at a concrete state and report sequence. -/
theorem gate_first_error_wins_witness :
    ({ sessInit (SessCfg.mk true 0 0 0) with
        exitError := some "boom", processExited := true } : Sess).exitError = some "boom" ∧
    (∀ ev ∈ [Ev.outClose, Ev.errClose], noErrorReport ev = true) ∧
    ((runEvents (SessCfg.mk true 0 0 0)
        { sessInit (SessCfg.mk true 0 0 0) with
            exitError := some "boom", processExited := true }
        [Ev.outClose, Ev.errClose]).exitError = some "boom" ∧
     ∀ x ∈ (runEvents (SessCfg.mk true 0 0 0)
        { sessInit (SessCfg.mk true 0 0 0) with
            exitError := some "boom", processExited := true }
        [Ev.outClose, Ev.errClose]).gateErrs,
        x ∈ ({ sessInit (SessCfg.mk true 0 0 0) with
            exitError := some "boom", processExited := true } : Sess).gateErrs ∨
          x = some "boom") :=
  ⟨rfl, by decide,
   gate_first_error_wins (SessCfg.mk true 0 0 0)
     { sessInit (SessCfg.mk true 0 0 0) with
         exitError := some "boom", processExited := true }
     "boom" [Ev.outClose, Ev.errClose] rfl (by decide)⟩

/-! ### Observer delivery (ring level) -/

theorem close_obs (st : LinesRing) :
    st.close.obs = st.obs.map (fun r => r ++ opEmits st RingOp.close) := by
  by_cases hcl : st.closed = true
  · simp only [LinesRing.close, opEmits, if_pos hcl]
    cases st.obs <;> simp
  · cases hcur : st.current with
    | none =>
      simp only [LinesRing.close, opEmits, if_neg hcl, hcur]
      cases st.obs <;> simp
    | some cur =>
      simp only [LinesRing.close, opEmits, LinesRing.deliver, if_neg hcl, hcur]

theorem append_obs (st : LinesRing) (str : String) :
    (st.append str).obs = st.obs.map (fun r => r ++ opEmits st (RingOp.append str)) := by
  by_cases hcl : st.closed = true
  · simp only [LinesRing.append, opEmits, if_pos hcl]
    cases st.obs <;> simp
  · by_cases hs : str = ""
    · simp only [LinesRing.append, opEmits, if_neg hcl, if_pos hs]
      cases st.obs <;> simp
    · cases hsp : splitNl str with
      | nil =>
        simp only [LinesRing.append, opEmits, if_neg hcl, if_neg hs, hsp]
        cases st.obs <;> simp
      | cons first rest =>
        cases rest with
        | nil =>
          simp only [LinesRing.append, opEmits, if_neg hcl, if_neg hs, hsp]
          cases st.current <;> cases st.obs <;> simp
        | cons r rs =>
          simp only [LinesRing.append, opEmits, LinesRing.deliver,
            if_neg hcl, if_neg hs, hsp]

/-- Each ring operation extends a registered observer's delivery log by
exactly the batch of lines it emits. -/
theorem ringStep_obs (st : LinesRing) (op : RingOp) :
    (ringStep st op).obs = st.obs.map (fun r => r ++ opEmits st op) := by
  cases op with
  | close => exact close_obs st
  | append s => exact append_obs st s

theorem ringStep_obs_none (st : LinesRing) (op : RingOp) (h : st.obs = none) :
    (ringStep st op).obs = none := by
  rw [ringStep_obs, h]; rfl

theorem runOps_obs (ops : List RingOp) (st : LinesRing) (L : List String)
    (h : st.obs = some L) :
    (runOps st ops).obs = some (L ++ emitsDuring st ops) := by
  induction ops generalizing st L with
  | nil => simpa [runOps, emitsDuring] using h
  | cons op ops ih =>
    have h1 : (ringStep st op).obs = some (L ++ opEmits st op) := by
      rw [ringStep_obs, h]; rfl
    have h2 := ih (ringStep st op) (L ++ opEmits st op) h1
    simpa [runOps, emitsDuring, List.append_assoc] using h2

/-! ### No `stderr` events through the documented constructor (C10) -/

theorem sessStep_stderrObs_none (cfg : SessCfg) (st : Sess) (e : Ev)
    (h : st.stderrRing.obs = none) :
    (sessStep cfg st e).stderrRing.obs = none := by
  cases e with
  | exit code signal =>
    cases signal with
    | some sg => simpa [sessStep] using h
    | none =>
      by_cases hc : code ≠ 0
      · simpa [sessStep, if_pos hc] using h
      · simpa [sessStep, if_neg hc] using h
  | outClose => simpa [sessStep] using h
  | errClose =>
    have h2 := ringStep_obs_none st.stderrRing .close h
    simpa [sessStep, ringStep] using h2
  | timeout => simpa [sessStep] using h
  | outData s => simpa [sessStep] using h
  | errData s =>
    have h2 := ringStep_obs_none st.stderrRing (.append s) h
    simpa [sessStep, ringStep] using h2

/-- C10: through the documented construction API the `stderr`-listener
check inside `processCB` always sees zero listeners (the constructor runs
`run()` synchronously before returning the command object), so the stderr
ring never gets an observer and no `stderr` line notification is ever
delivered, over any event sequence. -/
theorem constructed_stderr_silent (captureStdout : Bool) (timeout : Nat)
    (stdoutLines : Int) (l : List Ev) :
    stderrEvents
      (runEvents (constructedCfg captureStdout timeout stdoutLines)
        (sessInit (constructedCfg captureStdout timeout stdoutLines)) l) = [] := by
  have hnone :
      ∀ l (st : Sess), st.stderrRing.obs = none →
        (runEvents (constructedCfg captureStdout timeout stdoutLines) st l).stderrRing.obs
          = none := by
    intro l
    induction l with
    | nil => exact fun st h => h
    | cons e l ih =>
      intro st h
      exact ih _ (sessStep_stderrObs_none _ st e h)
  have hinit :
      (sessInit (constructedCfg captureStdout timeout stdoutLines)).stderrRing.obs = none := rfl
  unfold stderrEvents
  rw [hnone l _ hinit]

/-! ### The spawn-error path crashes (C5) -/

/-- C5 evaluation: when the platform reports a spawn-level error, the
installed handler calls `endCB(err)` with both ring arguments absent, and
`endCB` throws a `TypeError` dereferencing the missing stdout ring — no
`error` notification and no completion callback is ever emitted for that
run, for every spawn error and every session state. -/
theorem spawn_error_crashes (st : Sess) (err : String) :
    spawnErrorStep st err =
      Except.error "TypeError: Cannot read property get of undefined" := by
  simp only [spawnErrorStep, endCBArgs, getOpt]
  by_cases hh : hasSubstr err "exited with code" = true
  · rw [if_pos hh]; rfl
  · rw [if_neg hh]; rfl

/-! ### Gate firing count (C2 machinery) -/

theorem runEvents_append (cfg : SessCfg) (st : Sess) (l1 l2 : List Ev) :
    runEvents cfg st (l1 ++ l2) = runEvents cfg (runEvents cfg st l1) l2 := by
  induction l1 generalizing st with
  | nil => rfl
  | cons e l1 ih => simp [runEvents, ih]

/-- Whether delivering `e` in state `st` makes `handleExit` call `endCB`:
the event must set one of the three flags, and with it set the full
condition must hold. -/
def firesAt (cfg : SessCfg) (st : Sess) : Ev → Bool
  | .exit _ _ => requiredDoneB cfg { st with processExited := true }
  | .outClose => requiredDoneB cfg { st with stdoutClosed := true }
  | .errClose => requiredDoneB cfg { st with stderrClosed := true }
  | _ => false

theorem sessStep_gateFired (cfg : SessCfg) (st : Sess) (e : Ev) :
    (sessStep cfg st e).gateFired =
      st.gateFired + (if firesAt cfg st e then 1 else 0) := by
  cases e with
  | exit code signal =>
    cases signal with
    | some sg =>
      simpa [sessStep, firesAt] using
        handleExit_gateFired cfg { st with processExited := true } _
    | none =>
      by_cases hc : code ≠ 0
      · simpa [sessStep, if_pos hc, firesAt] using
          handleExit_gateFired cfg { st with processExited := true } _
      · simpa [sessStep, if_neg hc, firesAt] using
          handleExit_gateFired cfg { st with processExited := true } none
  | outClose =>
    simpa [sessStep, firesAt] using
      handleExit_gateFired cfg
        { st with stdoutRing := st.stdoutRing.close, stdoutClosed := true } none
  | errClose =>
    simpa [sessStep, firesAt] using
      handleExit_gateFired cfg
        { st with stderrRing := st.stderrRing.close, stderrClosed := true } none
  | timeout => simp [sessStep, firesAt]
  | outData s => simp [sessStep, firesAt]
  | errData s => simp [sessStep, firesAt]

/-- The firing condition restated over the history of delivered events. -/
def requiredAfterB (cfg : SessCfg) (l : List Ev) : Bool :=
  l.any isExitEv && (l.any isOutCloseEv || !cfg.captureStdout) && l.any isErrCloseEv

theorem firesAt_eq (cfg : SessCfg) (p : List Ev) (e : Ev)
    (h : isSignalEv e = true) :
    firesAt cfg (runEvents cfg (sessInit cfg) p) e = requiredAfterB cfg (p ++ [e]) := by
  cases e <;> simp [isSignalEv, isExitEv, isOutCloseEv, isErrCloseEv] at h <;>
    simp [firesAt, requiredDoneB, requiredAfterB, List.any_append,
      runEvents_processExited, runEvents_stdoutClosed, runEvents_stderrClosed,
      sessInit, isExitEv, isOutCloseEv, isErrCloseEv, Bool.and_assoc]

theorem threeCounts (l : List Ev) (h : ∀ e ∈ l, isSignalEv e = true) :
    l.countP isExitEv + l.countP isOutCloseEv + l.countP isErrCloseEv = l.length := by
  induction l with
  | nil => simp
  | cons e t ih =>
    have he := h e (by simp)
    have ht := ih (fun x hx => h x (by simp [hx]))
    cases e with
    | exit c sg =>
      simp [List.countP_cons, isExitEv, isOutCloseEv, isErrCloseEv]
      omega
    | outClose =>
      simp [List.countP_cons, isExitEv, isOutCloseEv, isErrCloseEv]
      omega
    | errClose =>
      simp [List.countP_cons, isExitEv, isOutCloseEv, isErrCloseEv]
      omega
    | timeout => simp [isSignalEv, isExitEv, isOutCloseEv, isErrCloseEv] at he
    | outData s => simp [isSignalEv, isExitEv, isOutCloseEv, isErrCloseEv] at he
    | errData s => simp [isSignalEv, isExitEv, isOutCloseEv, isErrCloseEv] at he

theorem requiredAfter_take_false (cfg : SessCfg) (l : List Ev) (hg : gateRun cfg l)
    (m : Nat) (hm : m < l.length) :
    requiredAfterB cfg (l.take m) = false := by
  obtain ⟨hx, ho, he, hs⟩ := hg
  by_contra hcon
  have htrue : requiredAfterB cfg (l.take m) = true := by
    cases h2 : requiredAfterB cfg (l.take m)
    · exact absurd h2 hcon
    · rfl
  unfold requiredAfterB at htrue
  simp only [Bool.and_eq_true] at htrue
  obtain ⟨⟨h1, h2⟩, h3⟩ := htrue
  have hsub := List.take_sublist m l
  have hlen : (l.take m).length = m := by
    rw [List.length_take]
    omega
  have hsigs : ∀ e ∈ l.take m, isSignalEv e = true :=
    fun e hearg => hs e (hsub.mem hearg)
  have hsum := threeCounts (l.take m) hsigs
  have hxp : 0 < (l.take m).countP isExitEv := by
    rw [List.countP_pos_iff]
    exact List.any_eq_true.mp h1
  have hep : 0 < (l.take m).countP isErrCloseEv := by
    rw [List.countP_pos_iff]
    exact List.any_eq_true.mp h3
  have hxle := hsub.countP_le isExitEv
  have hele := hsub.countP_le isErrCloseEv
  have hole := hsub.countP_le isOutCloseEv
  rw [hx] at hxle
  rw [he] at hele
  have hsumL := threeCounts l hs
  cases hcap : cfg.captureStdout with
  | true =>
    have h2x : (l.take m).any isOutCloseEv = true := by
      simp only [Bool.or_eq_true] at h2
      rcases h2 with h | h
      · exact h
      · rw [hcap] at h
        simp at h
    have hop : 0 < (l.take m).countP isOutCloseEv := by
      rw [List.countP_pos_iff]
      exact List.any_eq_true.mp h2x
    rw [hcap, if_pos rfl] at ho
    rw [ho] at hole
    omega
  | false =>
    rw [hcap] at ho
    have ho0 : l.countP isOutCloseEv = 0 := by simpa using ho
    have h2x : (l.take m).countP isOutCloseEv = 0 := Nat.le_zero.mp (ho0 ▸ hole)
    omega

theorem requiredAfter_full (cfg : SessCfg) (l : List Ev) (hg : gateRun cfg l) :
    requiredAfterB cfg l = true := by
  obtain ⟨hx, ho, he, -⟩ := hg
  unfold requiredAfterB
  have h1 : l.any isExitEv = true :=
    any_of_countP_pos _ _ (by rw [hx]; exact Nat.one_pos)
  have h3 : l.any isErrCloseEv = true :=
    any_of_countP_pos _ _ (by rw [he]; exact Nat.one_pos)
  cases hcap : cfg.captureStdout with
  | true =>
    have h2 : l.any isOutCloseEv = true :=
      any_of_countP_pos _ _ (by rw [ho, if_pos hcap]; exact Nat.one_pos)
    simp [h1, h2, h3]
  | false => simp [h1, h3]

theorem take_succ_getElem (l : List Ev) (m : Nat) (hm : m < l.length) :
    l.take (m + 1) = l.take m ++ [l[m]] := by
  rw [← List.take_concat_get l m hm, List.concat_eq_append]

theorem gateFired_take_succ (cfg : SessCfg) (l : List Ev) (hg : gateRun cfg l)
    (m : Nat) (hm : m < l.length) :
    (runEvents cfg (sessInit cfg) (l.take (m + 1))).gateFired =
      (runEvents cfg (sessInit cfg) (l.take m)).gateFired +
        (if requiredAfterB cfg (l.take (m + 1)) then 1 else 0) := by
  have hsig : isSignalEv l[m] = true := hg.2.2.2 l[m] (l.getElem_mem hm)
  rw [take_succ_getElem l m hm, runEvents_append]
  have hstep := sessStep_gateFired cfg (runEvents cfg (sessInit cfg) (l.take m)) l[m]
  have hfires := firesAt_eq cfg (l.take m) l[m] hsig
  rw [← take_succ_getElem l m hm] at hfires
  simp only [runEvents, hstep, hfires]
  rw [← take_succ_getElem l m hm]

theorem gateFired_take_zero_of_proper (cfg : SessCfg) (l : List Ev) (hg : gateRun cfg l) :
    ∀ m, m < l.length → (runEvents cfg (sessInit cfg) (l.take m)).gateFired = 0 := by
  intro m
  induction m with
  | zero => intro _; rfl
  | succ m ih =>
    intro hm
    have hm' : m < l.length := Nat.lt_of_succ_lt hm
    rw [gateFired_take_succ cfg l hg m hm', ih hm',
      requiredAfter_take_false cfg l hg (m + 1) hm]
    simp

/-- C2: for every configured required-signal set and every permutation of
the required report calls (each delivered exactly once, in any order), the
gate's terminal callback `endCB` is invoked exactly once over the whole
run, and zero times after every proper prefix — i.e. it fires exactly at
the moment the last required signal is reported, never earlier and never
twice. -/
theorem gate_fires_exactly_at_last (cfg : SessCfg) (l : List Ev) (h : gateRun cfg l) :
    (runEvents cfg (sessInit cfg) l).gateFired = 1 ∧
    ∀ m, m < l.length → (runEvents cfg (sessInit cfg) (l.take m)).gateFired = 0 := by
  refine ⟨?_, gateFired_take_zero_of_proper cfg l h⟩
  have hne : l ≠ [] := by
    intro hnil
    have := h.1
    rw [hnil] at this
    simp at this
  obtain ⟨n, hn⟩ : ∃ n, l.length = n + 1 :=
    Nat.exists_eq_succ_of_ne_zero (by
      intro h0
      exact hne (List.length_eq_zero.mp h0))
  have hlt : n < l.length := by omega
  have hfull : l.take (n + 1) = l := by
    rw [← hn]
    exact List.take_length l
  have := gateFired_take_succ cfg l h n hlt
  rw [hfull, gateFired_take_zero_of_proper cfg l h n hlt,
    requiredAfter_full cfg l h] at this
  simpa using this

/-- Witness for C2 at a concrete configuration and permutation. -/
theorem gate_fires_exactly_at_last_witness :
    gateRun (SessCfg.mk true 0 0 0) [Ev.errClose, Ev.exit 0 none, Ev.outClose] ∧
    ((runEvents (SessCfg.mk true 0 0 0) (sessInit (SessCfg.mk true 0 0 0))
        [Ev.errClose, Ev.exit 0 none, Ev.outClose]).gateFired = 1 ∧
     ∀ m, m < ([Ev.errClose, Ev.exit 0 none, Ev.outClose] : List Ev).length →
       (runEvents (SessCfg.mk true 0 0 0) (sessInit (SessCfg.mk true 0 0 0))
         (([Ev.errClose, Ev.exit 0 none, Ev.outClose] : List Ev).take m)).gateFired = 0) :=
  ⟨by decide,
   gate_fires_exactly_at_last (SessCfg.mk true 0 0 0)
     [Ev.errClose, Ev.exit 0 none, Ev.outClose] (by decide)⟩

/-! ### `extractError` as a maximal trailing run (C9) -/

/-- Spec-side definition, following the claim's words: the maximal
trailing run of lines that do not begin with a space or an opening
bracket (computed as the longest noise-free suffix). -/
def trailingRun (l : List String) : List String :=
  (l.reverse.takeWhile (fun m => !isNoiseStart m)).reverse

theorem takeWhile_append_bad (xs : List String) (m : String)
    (h : isNoiseStart m = true) :
    (xs ++ [m]).takeWhile (fun x => !isNoiseStart x) =
      xs.takeWhile (fun x => !isNoiseStart x) := by
  induction xs with
  | nil => simp [List.takeWhile_cons, h]
  | cons x xs ih =>
    cases hx : isNoiseStart x <;> simp [List.takeWhile_cons, hx, ih]

theorem takeWhile_append_hasBad (xs ys : List String)
    (h : xs.any isNoiseStart = true) :
    (xs ++ ys).takeWhile (fun x => !isNoiseStart x) =
      xs.takeWhile (fun x => !isNoiseStart x) := by
  induction xs with
  | nil => simp at h
  | cons x xs ih =>
    cases hx : isNoiseStart x with
    | true => simp [List.takeWhile_cons, hx]
    | false =>
      have h2 : xs.any isNoiseStart = true := by
        simpa [hx] using h
      simp [List.takeWhile_cons, hx, ih h2]

theorem trailingRun_cons_bad (m : String) (t : List String)
    (h : isNoiseStart m = true) : trailingRun (m :: t) = trailingRun t := by
  unfold trailingRun
  rw [List.reverse_cons, takeWhile_append_bad _ _ h]

theorem trailingRun_cons_goodBad (m : String) (t : List String)
    (h : t.any isNoiseStart = true) : trailingRun (m :: t) = trailingRun t := by
  unfold trailingRun
  rw [List.reverse_cons, takeWhile_append_hasBad]
  rwa [List.any_reverse]

theorem trailingRun_no_bad (t : List String) (h : t.any isNoiseStart = false) :
    trailingRun t = t := by
  unfold trailingRun
  rw [List.takeWhile_eq_self_iff.mpr, List.reverse_reverse]
  intro x hx
  have hmem : x ∈ t := List.mem_reverse.mp hx
  simp only [Bool.not_eq_true']
  cases hxn : isNoiseStart x
  · rfl
  · have h2 : t.any isNoiseStart = true := List.any_eq_true.mpr ⟨x, hmem, hxn⟩
    rw [h] at h2
    exact h2.symm

theorem extractFold (l : List String) (acc : List String) :
    l.foldl (fun messages message =>
        if isNoiseStart message then [] else messages ++ [message]) acc =
      if l.any isNoiseStart then trailingRun l else acc ++ l := by
  induction l generalizing acc with
  | nil => simp
  | cons m t ih =>
    cases hm : isNoiseStart m with
    | true =>
      rw [List.foldl_cons, if_pos hm, ih [], trailingRun_cons_bad m t hm]
      have hany : (m :: t).any isNoiseStart = true := by simp [hm]
      rw [if_pos hany]
      cases ht : t.any isNoiseStart
      · rw [if_neg (by simp [ht]), trailingRun_no_bad t ht]
        simp
      · rw [if_pos rfl]
    | false =>
      rw [List.foldl_cons, if_neg (by simp [hm]), ih (acc ++ [m])]
      have hany : (m :: t).any isNoiseStart = t.any isNoiseStart := by simp [hm]
      rw [hany]
      cases ht : t.any isNoiseStart
      · simp
      · rw [if_pos rfl, if_pos rfl, trailingRun_cons_goodBad m t ht]

/-- C9: `extractError` returns exactly the newline-join of the maximal
trailing run of stderr lines not beginning with a space or an opening
bracket; and in the exit-code-2 scenario with stderr
`"  progress\nreal error"` the session's terminal error message is the
`exited with code` message with `": real error"` appended. -/
theorem extractError_trailing_run :
    (∀ s, extractError s = joinLines (trailingRun (splitNl s))) ∧
    (runEvents (SessCfg.mk true 0 0 0) (sessInit (SessCfg.mk true 0 0 0))
        [Ev.errData "  progress\nreal error", Ev.errClose, Ev.outClose,
         Ev.exit 2 none]).out =
      [Emission.errorEv ("child process target exited with code 2" ++ ": real error")
          "" "  progress\nreal error",
       Emission.cb (some ("child process target exited with code 2" ++ ": real error"))
          "" "  progress\nreal error"] := by
  constructor
  · intro s
    unfold extractError
    rw [extractFold]
    cases hany : (splitNl s).any isNoiseStart
    · rw [if_neg (by simp [hany]), trailingRun_no_bad _ hany]
      simp
    · rw [if_pos rfl]
  · decide

/-! ### Observer registration (C4) -/

/-- C4 counterexample: with capacity 2 and three completed lines, an
observer registered after the appends receives only the retained lines
`["3", ""]` on replay plus the close flush, while an observer registered
from the start receives every emitted line `["1", "2", "3", ""]` — the
evicted lines `"1"` and `"2"` are never replayed to the late observer. -/
theorem observer_misses_evicted_lines :
    ((LinesRing.append (ringInit 2) "1\n2\n3\n").callback.close).obs = some ["3", ""] ∧
    (((ringInit 2).callback.append "1\n2\n3\n").close).obs = some ["1", "2", "3", ""] ∧
    (["3", ""] : List String) ≠ ["1", "2", "3", ""] := by
  decide

/-- C4 amended: an observer registered at any point receives exactly the
lines retained at registration time (the replay) followed by every line
emitted after registration, each exactly once and in emission order;
lines evicted before registration are not replayed. -/
theorem observer_replay_then_subscribe (K : Int) (ops1 ops2 : List RingOp) :
    (runOps ((runOps (ringInit K) ops1).callback) ops2).obs =
      some ((runOps (ringInit K) ops1).lines ++
        emitsDuring ((runOps (ringInit K) ops1).callback) ops2) :=
  runOps_obs ops2 _ _ rfl

/-! ### Capacity bound and eviction order (C3) -/

theorem suffix_append_right {α : Type} (xs ys zs : List α) (h : xs <:+ ys) :
    xs ++ zs <:+ ys ++ zs := by
  obtain ⟨t, rfl⟩ := h
  exact ⟨t, by simp⟩

/-- C3 counterexample: with `stdoutLines = 2` and five written lines the
ring does NOT retain lines 4 and 5: `max = maxLines - 1` keeps only one
completed line through `append`, and `close` flushes the trailing partial
(possibly empty) line, evicting one more — `get()` is `""` for
`"1\n2\n3\n4\n5\n"` and `"5"` for `"1\n2\n3\n4\n5"`, never `"4\n5"`. -/
theorem ring_five_lines_capacity_two :
    (LinesRing.close (LinesRing.append (ringInit 2) "1\n2\n3\n4\n5\n")).get = "" ∧
    (LinesRing.close (LinesRing.append (ringInit 2) "1\n2\n3\n4\n5")).get = "5" ∧
    ("" : String) ≠ "4\n5" ∧ ("5" : String) ≠ "4\n5" := by
  decide

/-- Invariant for the capacity argument: an unclosed ring built with
capacity `K` whose observer was registered at creation keeps at most
`K - 1` lines, and they form a suffix of the full emission log. -/
def CapInv (K : Int) (st : LinesRing) : Prop :=
  st.closed = false ∧ st.maxLines = K ∧
  ∃ L, st.obs = some L ∧ st.lines <:+ L ∧ (st.lines.length : Int) ≤ K - 1

theorem evict_suffix (maxLines : Int) (l : List String) :
    evict maxLines l <:+ l := by
  unfold evict
  dsimp only
  split
  · exact List.drop_suffix _ _
  · exact List.suffix_refl l

theorem evict_length (K : Int) (hK : 0 < K) (l : List String)
    (hm : (K : Int) - 1 ≥ 0) :
    ((evict K l).length : Int) ≤ K - 1 := by
  unfold evict
  dsimp only
  split
  · rename_i hcond
    rw [List.length_drop]
    have h2 : ((K - 1).toNat : Int) = K - 1 := Int.toNat_of_nonneg hm
    omega
  · rename_i hcond
    rw [not_and_or] at hcond
    rcases hcond with h | h
    · omega
    · omega

theorem append_CapInv (K : Int) (hK : 0 < K) (st : LinesRing) (c : String)
    (h : CapInv K st) : CapInv K (st.append c) := by
  obtain ⟨hcl, hm, L, hobs, hsuf, hlen⟩ := h
  unfold LinesRing.append
  rw [if_neg (by simp [hcl])]
  by_cases hc : c = ""
  · rw [if_pos hc]
    exact ⟨hcl, hm, L, hobs, hsuf, hlen⟩
  · rw [if_neg hc]
    cases hsp : splitNl c with
    | nil => exact ⟨hcl, hm, L, hobs, hsuf, hlen⟩
    | cons first rest =>
      cases rest with
      | nil =>
        cases st.current
        · exact ⟨hcl, hm, L, hobs, hsuf, hlen⟩
        · exact ⟨hcl, hm, L, hobs, hsuf, hlen⟩
      | cons r rs =>
        cases hcur : st.current with
        | none =>
          refine ⟨hcl, hm, L ++ first :: (splitLast r rs).1, ?_, ?_, ?_⟩
          · simp [LinesRing.deliver, hobs]
          · exact (evict_suffix _ _).trans
              (suffix_append_right _ _ _ hsuf)
          · simp only [LinesRing.deliver]
            rw [hm]
            exact evict_length K hK _ (by omega)
        | some cur =>
          refine ⟨hcl, hm, L ++ (cur ++ first) :: (splitLast r rs).1, ?_, ?_, ?_⟩
          · simp [LinesRing.deliver, hobs]
          · exact (evict_suffix _ _).trans
              (suffix_append_right _ _ _ hsuf)
          · simp only [LinesRing.deliver]
            rw [hm]
            exact evict_length K hK _ (by omega)

theorem runAppends_CapInv (K : Int) (hK : 0 < K) (chunks : List String)
    (st : LinesRing) (h : CapInv K st) : CapInv K (runAppends st chunks) := by
  induction chunks generalizing st with
  | nil => exact h
  | cons c chunks ih => exact ih _ (append_CapInv K hK st c h)

theorem close_CapInv (K : Int) (hK : 0 < K) (st : LinesRing) (h : CapInv K st) :
    ((st.close.lines.length : Int) ≤ K - 1 ∧
      ∃ L, st.close.obs = some L ∧ st.close.lines <:+ L) := by
  obtain ⟨hcl, hm, L, hobs, hsuf, hlen⟩ := h
  unfold LinesRing.close
  rw [if_neg (by simp [hcl])]
  cases hcur : st.current with
  | none => exact ⟨hlen, L, hobs, hsuf⟩
  | some cur =>
    simp only [LinesRing.deliver]
    have hl1 : (st.lines ++ [cur]).length = st.lines.length + 1 := by simp
    constructor
    · split
      · rename_i hcond
        rw [List.length_tail, hl1]
        omega
      · rename_i hcond
        rw [hm, not_and_or] at hcond
        rw [hl1]
        rcases hcond with h2 | h2
        · omega
        · push_neg at h2
          rw [hl1] at h2
          push_cast at h2 ⊢
          omega
    · refine ⟨L ++ [cur], by rw [hobs]; rfl, ?_⟩
      split
      · exact (List.tail_suffix _).trans (suffix_append_right _ _ _ hsuf)
      · exact suffix_append_right _ _ _ hsuf

/-- C3 amended: for capacity `K > 0`, after any sequence of appends and a
`close()` the ring retains at most `K - 1` completed lines (not `K`: the
source sets `max = maxLines - 1`), and the retained lines are a suffix of
the full emission log — the most recent lines, oldest evicted first. -/
theorem ring_keeps_most_recent (K : Int) (hK : 0 < K) (chunks : List String) :
    (((runAppends ((ringInit K).callback) chunks).close.lines.length : Int) ≤ K - 1 ∧
      ∃ L, (runAppends ((ringInit K).callback) chunks).close.obs = some L ∧
        (runAppends ((ringInit K).callback) chunks).close.lines <:+ L) := by
  have hinit : CapInv K ((ringInit K).callback) := by
    refine ⟨rfl, rfl, [], rfl, List.suffix_refl [], ?_⟩
    simp only [ringInit, LinesRing.callback, List.length_nil, Nat.cast_zero]
    omega
  exact close_CapInv K hK _ (runAppends_CapInv K hK chunks _ hinit)

/-- Witness for the amended C3 at `K = 2` with three chunks. -/
theorem ring_keeps_most_recent_witness :
    (0 : Int) < 2 ∧
    ((((runAppends ((ringInit 2).callback) ["a\nb", "c\n", "d"]).close.lines.length : Int))
        ≤ 2 - 1 ∧
      ∃ L, (runAppends ((ringInit 2).callback) ["a\nb", "c\n", "d"]).close.obs = some L ∧
        (runAppends ((ringInit 2).callback) ["a\nb", "c\n", "d"]).close.lines <:+ L) :=
  ⟨by decide, ring_keeps_most_recent 2 (by decide) ["a\nb", "c\n", "d"]⟩

/-! ### Round-trip of appended text (C6) -/

theorem joinLines_cons_ne (x : String) (t : List String) (h : t ≠ []) :
    joinLines (x :: t) = x ++ "\n" ++ joinLines t := by
  cases t with
  | nil => exact absurd rfl h
  | cons y t => rfl

theorem joinLines_split (l : List String) (a b : String) (m : List String) :
    joinLines (l ++ (a ++ b) :: m) = joinLines (l ++ [a]) ++ joinLines (b :: m) := by
  induction l with
  | nil =>
    cases m with
    | nil => rfl
    | cons c t =>
      show joinLines ((a ++ b) :: c :: t) = joinLines [a] ++ joinLines (b :: c :: t)
      apply strExt
      simp [joinLines, strData_append]
  | cons x l ih =>
    have h1 : l ++ (a ++ b) :: m ≠ [] := by simp
    have h2 : l ++ [a] ≠ [] := by simp
    show joinLines (x :: (l ++ (a ++ b) :: m)) =
      joinLines (x :: (l ++ [a])) ++ joinLines (b :: m)
    rw [joinLines_cons_ne x _ h1, joinLines_cons_ne x _ h2, ih]
    apply strExt
    simp [strData_append]

theorem joinLines_snoc_append (l : List String) (a b : String) :
    joinLines (l ++ [a ++ b]) = joinLines (l ++ [a]) ++ b := by
  simpa using joinLines_split l a b []

/-- Per-chunk newline normalization: split one chunk on CR / LF / CRLF and
rejoin with LF. -/
def normChunk (c : String) : String := joinLines (splitNl c)

/-- Concatenation of the per-chunk normalized texts. -/
def normCat : List String → String
  | [] => ""
  | c :: t => normChunk c ++ normCat t

theorem evict_nonpos (K : Int) (hK : K ≤ 0) (l : List String) : evict K l = l := by
  unfold evict
  dsimp only
  rw [if_neg]
  intro h
  exact absurd h.1 (by omega)

/-- Invariant of the unbounded ring under appends: the retained lines plus
the pending partial, newline-joined, equal the text processed so far. -/
def RoundInv (st : LinesRing) (T : String) : Prop :=
  st.closed = false ∧ st.maxLines ≤ 0 ∧
  ((st.current = none ∧ st.lines = [] ∧ T = "") ∨
   (∃ cur, st.current = some cur ∧ joinLines (st.lines ++ [cur]) = T))

theorem append_RoundInv (st : LinesRing) (c : String) (T : String)
    (h : RoundInv st T) : RoundInv (st.append c) (T ++ normChunk c) := by
  obtain ⟨hcl, hm, hdis⟩ := h
  unfold LinesRing.append
  rw [if_neg (by simp [hcl])]
  by_cases hc : c = ""
  · rw [if_pos hc]
    have hn : normChunk c = "" := by rw [hc]; rfl
    rw [hn, strAppend_empty]
    exact ⟨hcl, hm, hdis⟩
  · rw [if_neg hc]
    cases hsp : splitNl c with
    | nil =>
      have hn : normChunk c = "" := by rw [normChunk, hsp]; rfl
      rw [hn, strAppend_empty]
      exact ⟨hcl, hm, hdis⟩
    | cons first rest =>
      cases rest with
      | nil =>
        have hn : normChunk c = first := by rw [normChunk, hsp]; rfl
        rw [hn]
        rcases hdis with ⟨hcur, hlines, hT⟩ | ⟨cur0, hcur, hT⟩
        · rw [hcur]
          refine ⟨hcl, hm, Or.inr ⟨first, rfl, ?_⟩⟩
          rw [hlines, hT, strEmpty_append]
          rfl
        · rw [hcur]
          refine ⟨hcl, hm, Or.inr ⟨cur0 ++ first, rfl, ?_⟩⟩
          rw [joinLines_snoc_append, hT]
      | cons r rs =>
        have hsplit : r :: rs = (splitLast r rs).1 ++ [(splitLast r rs).2] :=
          splitLast_spec r rs
        have hn : normChunk c =
            joinLines (first :: ((splitLast r rs).1 ++ [(splitLast r rs).2])) := by
          rw [normChunk, hsp, ← hsplit]
        rcases hdis with ⟨hcur, hlines, hT⟩ | ⟨cur0, hcur, hT⟩
        · rw [hcur]
          refine ⟨hcl, hm, Or.inr ⟨(splitLast r rs).2, rfl, ?_⟩⟩
          simp only [LinesRing.deliver, evict_nonpos st.maxLines hm, hlines,
            List.nil_append]
          rw [hT, strEmpty_append, hn]
          simp
        · rw [hcur]
          refine ⟨hcl, hm, Or.inr ⟨(splitLast r rs).2, rfl, ?_⟩⟩
          simp only [LinesRing.deliver, evict_nonpos st.maxLines hm]
          rw [hn, ← hT, ← joinLines_split]
          simp

theorem close_RoundInv (st : LinesRing) (T : String) (h : RoundInv st T) :
    st.close.get = T := by
  obtain ⟨hcl, hm, hdis⟩ := h
  unfold LinesRing.close
  rw [if_neg (by simp [hcl])]
  rcases hdis with ⟨hcur, hlines, hT⟩ | ⟨cur0, hcur, hT⟩
  · rw [hcur]
    rw [LinesRing.get]
    simp [hlines, hT, joinLines]
  · rw [hcur]
    simp only [LinesRing.deliver]
    rw [if_neg (by intro h2; exact absurd h2.1 (by omega))]
    rw [LinesRing.get]
    simpa using hT

/-- C6 counterexample: the round trip fails as universally stated.  A CRLF
split across two chunks (`"a\r"` then `"\nb"`) is normalized per chunk and
yields `"a\n\nb"`, while the normalization of the concatenated text
`"a\r\nb"` is `"a\nb"`; and a bounded ring (capacity 1) evicts lines, so
`get()` after `close()` loses text entirely. -/
theorem ring_roundtrip_cx :
    (((ringInit 0).append "a\r").append "\nb").close.get = "a\n\nb" ∧
    ("a\n\nb" : String) ≠ "a\nb" ∧
    normChunk ("a\r" ++ "\nb") = "a\nb" ∧
    (((ringInit 1).append "x\ny").close.get = "" ∧ ("" : String) ≠ "x\ny") := by
  decide

/-- C6 amended: for every unbounded ring (any capacity `K ≤ 0`, the
source treats all of them alike since `max = maxLines - 1 ≤ -1` disables
eviction; `0` is the session default), `get()` after `close()` equals the
concatenation of the per-chunk newline-normalized texts — each chunk's
CR/LF/CRLF are normalized to LF independently, so the round trip holds
chunkwise (a CRLF split across a chunk boundary yields two newlines). -/
theorem ring_roundtrip_per_chunk (K : Int) (hK : K ≤ 0) (chunks : List String) :
    (runAppends (ringInit K) chunks).close.get = normCat chunks := by
  suffices h : ∀ (cs : List String) (st : LinesRing) (T : String),
      RoundInv st T → RoundInv (runAppends st cs) (T ++ normCat cs) by
    have h0 : RoundInv (ringInit K) "" := ⟨rfl, hK, Or.inl ⟨rfl, rfl, rfl⟩⟩
    have h2 := h chunks _ _ h0
    rw [strEmpty_append] at h2
    exact close_RoundInv _ _ h2
  intro cs
  induction cs with
  | nil =>
    intro st T h
    have he : T ++ normCat [] = T := strAppend_empty T
    rw [he]
    exact h
  | cons c t ih =>
    intro st T h
    have h2 := ih _ _ (append_RoundInv st c T h)
    have he : (T ++ normChunk c) ++ normCat t = T ++ normCat (c :: t) :=
      strAppend_assoc T (normChunk c) (normCat t)
    rw [he] at h2
    exact h2

/-- Witness for the amended C6 at a negative capacity with a
chunk-boundary CRLF. -/
theorem ring_roundtrip_per_chunk_witness :
    (-1 : Int) ≤ 0 ∧
    (runAppends (ringInit (-1)) ["a\r", "\nb", "c"]).close.get =
      normCat ["a\r", "\nb", "c"] :=
  ⟨by decide, ring_roundtrip_per_chunk (-1) (by decide) ["a\r", "\nb", "c"]⟩
